import Mathlib

/-!
Shallow embedding of the SAT-based CSS-code distance calculator
(`release.ipynb`: `xor`, `pwt`, `sat_distance`, `check_proof`, `find_weight`,
and the notebook's own truth-table helpers `test_condition`,
`bit_string_or`, `bit_string_satisfies`), together with proofs about the
compiler and the search controller.

Conventions of the embedding:
* a literal is an `Int` (sign = polarity), a clause a `List Int`, a CNF a
  `List (List Int)`, exactly as in the notebook;
* Python `assert` failures and exceptions are modelled by `Option`/explicit
  exit values (`none` = the call raises);
* an assignment maps a variable index `v : Nat` to its Boolean value
  (the notebook's helpers index a bit string with `str[v-1]`; here the
  off-by-one is internalised in the assignment);
* external services (linear-algebra reduction `reduced_row_echelon`,
  `CardEnc.atmost`, the Glucose oracle, the `drup` checker) are out of
  scope per the spec and appear as parameters of the embedded code.
-/

namespace SatQecc

abbrev Clause := List Int
abbrev Cnf := List Clause

/-- Source `test_condition(constraint, str)`: value of one literal under an
assignment (`c > 0` reads the variable, `c = 0` is treated as true by the
source helper, `c < 0` negates). -/
def test_condition (c : Int) (s : Nat → Bool) : Bool :=
  if 0 < c then s c.natAbs
  else if c = 0 then true
  else ! s c.natAbs

/-- Source `bit_string_or(constraint, str)`: a clause is a disjunction. -/
def bit_string_or (cl : Clause) (s : Nat → Bool) : Bool :=
  cl.any (fun c => test_condition c s)

/-- Source `bit_string_satisfies(constraints, str)`: a CNF is a conjunction
of clauses. -/
def bit_string_satisfies (F : Cnf) (s : Nat → Bool) : Bool :=
  F.all (fun cl => bit_string_or cl s)

/-- Parity (XOR) of the truth values of a list of literals under an
assignment: the specification-side meaning of `pwt`'s literal list. -/
def xorVal (s : Nat → Bool) : List Int → Bool
  | [] => false
  | l :: t => Bool.xor (test_condition l s) (xorVal s t)

/-- Source `xor(y, x1, x2)`: the four clauses fixing `y = x1 ⊕ x2`.
The source asserts `y * x1 * x2 != 0`; assertion failure is `none`. -/
def xorClauses (y x1 x2 : Int) : Option Cnf :=
  if y * x1 * x2 = 0 then none
  else some [[-y, -x1, -x2], [-y, x1, x2], [y, x1, -x2], [y, -x1, x2]]

/-- Source `pwt(h, idx, num_vars)` with an explicit fuel argument (the
recursion of the source is not structurally decreasing in the degenerate
`len(h) == 1` case, where it recurses on an empty half and fails the
`len(h) > 0` assertion; the fuel is a pure termination device and is
irrelevant whenever it exceeds `h.length`, see `pwt`).  Guards mirror the
source assertions `len(h) > 0`, `idx > 0`, `num_vars > 0`; the source's
element check `isinstance(el,int) and h != 0` compares the *list* `h`
against `0` and is vacuously true, so no per-element guard appears here. -/
def pwtF : Nat → List Int → Int → Int → Option (Cnf × Nat)
  | 0, _, _, _ => none
  | fuel + 1, h, idx, num_vars =>
    if h.length = 0 then none
    else if idx ≤ 0 then none
    else if num_vars ≤ 0 then none
    else if h.length = 2 then
      match xorClauses idx (h.getD 0 0) (h.getD 1 0) with
      | none => none
      | some cs => some (cs, 0)
    else if h.length = 3 then
      match xorClauses idx (h.getD 2 0) (num_vars + 1) with
      | none => none
      | some cs =>
        match pwtF fuel (h.take 2) (num_vars + 1) (num_vars + 1) with
        | none => none
        | some (nc, na) => some (cs ++ nc, 1 + na)
    else
      match xorClauses idx (num_vars + 1) (num_vars + 2) with
      | none => none
      | some cs =>
        match pwtF fuel (h.take (h.length / 2)) (num_vars + 1) (num_vars + 2) with
        | none => none
        | some (ncB, naB) =>
          match pwtF fuel (h.drop (h.length / 2)) (num_vars + 2)
              (num_vars + 2 + (naB : Int)) with
          | none => none
          | some (ncC, naC) => some (cs ++ ncB ++ ncC, 2 + naB + naC)

/-- Source `pwt`: clauses forcing variable `idx` to the parity of the
literals `h`, plus the number of fresh ancilla variables used
(allocated at `num_vars + 1, …`).  `h.length + 1` units of fuel always
suffice. -/
def pwt (h : List Int) (idx num_vars : Int) : Option (Cnf × Nat) :=
  pwtF (h.length + 1) h idx num_vars

/-! ### `sat_distance`: pre-compilation guard (configuration checks) -/

/-- Source `assert not np.any(HX - HX*HX)`: every entry `x` must satisfy
`x - x*x = 0`, i.e. be binary. -/
def binary_check (M : List (List Int)) : Bool :=
  M.all (fun r => r.all (fun x => x - x * x == 0))

/-- Source `np.shape(M)[1]`: the column count of a (rectangular) matrix. -/
def shape1 (M : List (List Int)) : Nat :=
  (M.headD []).length

/-- Integer dot product of two rows, as in `HX @ HZ.T`. -/
def dotI (a b : List Int) : Int :=
  ((a.zip b).map (fun p => p.1 * p.2)).sum

/-- Source `assert not np.any(np.mod(HX @ HZ.T, 2))`: every row of `HX`
must have even overlap with every row of `HZ`. -/
def comm_check (HX HZ : List (List Int)) : Bool :=
  HX.all (fun rx => HZ.all (fun rz => dotI rx rz % 2 == 0))

/-- The configuration assertions `sat_distance` runs before any clause is
built, in source order: `HX` binary, `HZ` binary, equal column counts,
`HX·HZᵀ ≡ 0 (mod 2)`. -/
def sat_distance_guard (HX HZ : List (List Int)) : Bool :=
  binary_check HX && binary_check HZ
    && (shape1 HX == shape1 HZ) && comm_check HX HZ

/-! ### `sat_distance`: clause compilation

`reduced_row_echelon` is an external service (the `ldpc` library); the
compilation below is therefore parameterised by its outputs: `n` (column
count), `rk` (rank of `HZ`), `rkx` (rank of `HX`), `A = Hz[:rk, rk:].T`
(given row-wise) and the row-reduced column-permuted `Hx`.  The
weight-bound term delegates to the external `CardEnc.atmost` library and
is likewise outside the embedded part. -/

/-- Source `[i+1 for i,j in enumerate(row) if j]`: 1-based indices of the
nonzero entries of a matrix row. -/
def supp (row : List Int) : List Int :=
  (row.enum.filter (fun p => p.2 != 0)).map (fun p => (p.1 : Int) + 1)

/-- One per-row `pwt` loop of `sat_distance`: every element of `rows` is a
pair (literal list, target variable); the running watermark `anc`
(`ancillas` in the source) is threaded through and advanced by each call's
ancilla count.  With `withUnit = true` the loop also emits the unit clause
`[-target]` before the row's `pwt` clauses (the null-space loop,
`constraints += [[-(start_ancillas+idx+1)]]`). -/
def pwtRows (withUnit : Bool) : List (List Int × Int) → Int → Option (Cnf × Int)
  | [], anc => some ([], anc)
  | (lits, tgt) :: rest, anc =>
    match pwt lits tgt anc with
    | none => none
    | some (nc, nn) =>
      match pwtRows withUnit rest (anc + (nn : Int)) with
      | none => none
      | some (cs, anc') =>
        some ((if withUnit then [[-tgt]] else []) ++ nc ++ cs, anc')

/-- The successive `(literals, target, num_vars)` argument triples that a
per-row loop passes to `pwt` (observation of the same threading as
`pwtRows`; the trace stops where the source would raise). -/
def pwtRowCalls : List (List Int × Int) → Int → List (List Int × Int × Int)
  | [], _ => []
  | (lits, tgt) :: rest, anc =>
    (lits, tgt, anc) ::
      (match pwt lits tgt anc with
       | none => []
       | some (_, nn) => pwtRowCalls rest (anc + (nn : Int)))

/-- Rows of the non-stabilizer loop (third term): for `idx < n - rk` the
literals are `supp (A[idx]) ++ [rk+idx+1]` and the target is `idx+n+1`. -/
def term3Rows (n rk : Nat) (A : List (List Int)) : List (List Int × Int) :=
  (List.range (n - rk)).map
    (fun i => (supp (A.getD i []) ++ [(rk : Int) + i + 1], (i : Int) + n + 1))

/-- Rows of the null-space loop (second term): for `idx < rkx` the literals
are `supp (Hx[idx])` and the target is `start_ancillas + idx + 1`. -/
def term2Rows (rkx : Nat) (Hx : List (List Int)) (start : Int) :
    List (List Int × Int) :=
  (List.range rkx).map (fun i => (supp (Hx.getD i []), start + i + 1))

/-- Source `constraints = [list(range(n+1, ancillas+1))]` with
`ancillas = 2n - rk`: the single top-level clause `y₁ ∨ … ∨ y_{n-rk}`. -/
def bigOrClause (n rk : Nat) : Clause :=
  (List.range (n - rk)).map (fun i => (n : Int) + 1 + i)

/-- The pwt-based clause set `sat_distance` compiles (third term, then
second term), with the final watermark.  The initial watermark is
`ancillas = 2n - rk` (the `n` qubit variables plus the `n - rk`
non-stabilizer outputs `y_i`); note that the null-space loop starts from
the watermark left by the third term without reserving its own `rkx`
output variables. -/
def sat_distance_cnf (n rk rkx : Nat) (A Hx : List (List Int)) :
    Option (Cnf × Int) :=
  match pwtRows false (term3Rows n rk A) (2 * (n : Int) - (rk : Int)) with
  | none => none
  | some (c3, anc1) =>
    match pwtRows true (term2Rows rkx Hx anc1) anc1 with
    | none => none
    | some (c2, anc2) => some (bigOrClause n rk :: (c3 ++ c2), anc2)

/-- `sat_distance` up to the end of pwt-based compilation: the guard
assertions run first and a violation aborts the call before any clause is
constructed (and hence before any oracle query). -/
def sat_distance_run (HX HZ : List (List Int)) (n rk rkx : Nat)
    (A Hx : List (List Int)) : Option (Cnf × Int) :=
  if sat_distance_guard HX HZ then sat_distance_cnf n rk rkx A Hx else none

/-! ### `sat_distance`: post-oracle phase (`check_proof`, model re-checks,
session release) -/

/-- Source `check_proof(proof, cnf)`: prints, converts the proof lines and
hands them to the external `drup.check_proof`, then returns `True`
unconditionally.  The external call is abstracted as an
`Except Unit Bool` (an exception, or the checker's verdict); obtaining and
converting the certificate is folded into the same value. -/
def check_proof (checker : Except Unit Bool) : Except Unit Bool :=
  checker.map (fun _ => true)

/-- How a `sat_distance` call ends. -/
inductive ExitPath where
  /-- normal return of the satisfying model -/
  | retModel (m : List Int)
  /-- normal return of `False` (unsatisfiable) -/
  | retFalse
  /-- an `assert` statement fails and the exception propagates -/
  | assertionError
  /-- an exception from the external proof checker propagates -/
  | externalError
  deriving DecidableEq

/-- `if b then 1 else 0`, for Python's bool-as-int arithmetic. -/
def boolInt (b : Bool) : Int := if b then 1 else 0

/-- Integer dot product of a matrix row with a Boolean vector, as in
`Hx @ result` with `result` a list of Booleans. -/
def rowDotB (row : List Int) (x : List Bool) : Int :=
  ((row.zip x).map (fun p => p.1 * boolInt p.2)).sum

/-- Source `np.sum(np.mod(Hx @ result, 2))`: total of the mod-2 row
parities (the null-space re-check demands this be `0`). -/
def nullVal (M : List (List Int)) (x : List Bool) : Int :=
  (M.map (fun r => rowDotB r x % 2)).sum

/-- Source `np.sum(np.mod(A @ x_left + x_right, 2))`: the non-stabilizer
re-check demands this be `> 0`. -/
def stabVal (A : List (List Int)) (xl xr : List Bool) : Int :=
  ((A.zip xr).map (fun p => (rowDotB p.1 xl + boolInt p.2) % 2)).sum

/-- The part of `sat_distance` after `g.solve()`, with the oracle's answer
as a parameter (`some model` / `none` for unsatisfiable): the model
re-checks (weight, null-space against the row-reduced column-permuted
`Hx`, non-stabilizer against the reduced block `A`) in source order, the
proof-checking branch, and the returns.  The second component records
whether `g.delete()` was executed before the exit (the source calls it
only immediately before the two `return` statements). -/
def post_solve (threshold : Int) (n rk : Nat) (Hx A : List (List Int))
    (solution : Option (List Int)) (proofFlag : Bool)
    (checker : Except Unit Bool) : ExitPath × Bool :=
  match solution with
  | some model =>
    let result := (model.take n).map (fun i => decide (0 < i))
    if ¬ (((result.filter id).length : Int) ≤ threshold) then
      (.assertionError, false)
    else if ¬ (nullVal Hx result = 0) then (.assertionError, false)
    else if ¬ (0 < stabVal A (result.take rk) (result.drop rk)) then
      (.assertionError, false)
    else (.retModel model, true)
  | none =>
    if proofFlag then
      match check_proof checker with
      | .error _ => (.externalError, false)
      | .ok b => if b then (.retFalse, true) else (.assertionError, false)
    else (.retFalse, true)

/-- Specification-side view of the model decoder, for comparison with the
source's checks: the recorded column permutation is inverted to recover
the support of the found operator in original qubit order (`perm i` is
the permuted position holding original position `i`). -/
def unpermuted (perm : Nat → Nat) (n : Nat) (result : List Bool) : List Bool :=
  (List.range n).map (fun i => result.getD (perm i) false)

/-- Specification-side null-space re-check, following the spec's wording
("recovers the physical-qubit support of the found operator by inverting
the permutation; … re-checks … the null-space condition … against the
original (unpermuted) matrices"): the original `HX`, applied to the
support in original qubit order, must vanish mod 2.  Declared for
comparison with the check the source actually performs in `post_solve`,
which uses the reduced, column-permuted `Hx` instead. -/
def spec_null_recheck (HX : List (List Int)) (perm : Nat → Nat) (n : Nat)
    (result : List Bool) : Bool :=
  nullVal HX (unpermuted perm n result) == 0

/-! ### `find_weight`: the distance search controller

`sat_distance` (with the external oracle inside it) is abstracted as a
query function `Int → Option (List Int)`: `some model` when the oracle
reports satisfiable at the given weight bound, `none` when unsatisfiable.
A `none` result of the loop itself models an assertion failure. -/

/-- Source `sum([val > 0 for val in out[:num]])`: the weight of a model,
counting positive entries among the first `num`. -/
def model_weight (num : Nat) (out : List Int) : Nat :=
  ((out.take num).filter (fun v => 0 < v)).length

/-- Source `while bRunning:` loop of `find_weight`, with fuel (each
iteration strictly decreases the positive bound, so `upper.toNat + 1`
units always suffice, see `findWeightLoop_fuel`): query the oracle at
`upper - 1`; on a model, assert `0 < n_upper < upper` and continue from
`n_upper`; on unsatisfiable, return `upper`. -/
def findWeightLoopF : Nat → (Int → Option (List Int)) → Nat → Int → Option Int
  | 0, _, _, _ => none
  | fuel + 1, query, num, upper =>
    match query (upper - 1) with
    | none => some upper
    | some out =>
      if 0 < (model_weight num out : Int) ∧ (model_weight num out : Int) < upper
      then findWeightLoopF fuel query num (model_weight num out)
      else none

/-- The `find_weight` search loop (fuel instantiated). -/
def findWeightLoop (query : Int → Option (List Int)) (num : Nat)
    (upper : Int) : Option Int :=
  findWeightLoopF (upper.toNat + 1) query num upper

/-- Source `find_weight(Hx, Hz, upper_bound, both, switch)`.  `qZ` is the
oracle for argument order `(Hx, Hz)` and `qX` for `(Hz, Hx)`; after the
source's initial swap, the first loop queries `qX` iff `switch`, and the
optional second loop always queries the opposite order, starting from the
bound the first loop converged to.  Both loops count weights over the
common column count `num`. -/
def find_weight (qZ qX : Int → Option (List Int)) (num : Nat)
    (upper_bound : Int) (both switch : Bool) : Option Int :=
  match findWeightLoop (if switch then qX else qZ) num upper_bound with
  | none => none
  | some u =>
    if both then findWeightLoop (if switch then qZ else qX) num u
    else some u

/-- Correctness of an abstract `sat_distance` oracle for a code whose
relevant distance is `d`: a query at bound `b` is satisfiable iff `d ≤ b`,
and any returned model is a genuine operator, so its weight lies in
`[d, b]`.  These are the search preconditions of the spec. -/
def OracleSpec (q : Int → Option (List Int)) (num : Nat) (d : Int) : Prop :=
  0 < d ∧ (∀ b, (q b).isSome ↔ d ≤ b) ∧
    ∀ b out, q b = some out →
      d ≤ (model_weight num out : Int) ∧ (model_weight num out : Int) ≤ b

/-! ### Concrete instances used by witnesses and counterexamples -/

/-- The assignment `x₁ = x₄ = 1, x₂ = x₃ = 0` (even parity on `[1,2,3,4]`),
used to exhibit the semantic corruption caused by the ancilla/target
collision of the null-space loop. -/
def evenCx : Nat → Bool := fun v => v == 1 || v == 4

/-- A toy oracle for the `find_weight` witness: satisfiable from bound 2
on, always answering with the weight-2 model `[1,2,-3,-4]`. -/
def q4 : Int → Option (List Int) :=
  fun b => if 2 ≤ b then some [1, 2, -3, -4] else none

/-- Toy Z-direction oracle (distance 2) for the `find_weight` symmetry
witness. -/
def qZ6 : Int → Option (List Int) :=
  fun b => if 2 ≤ b then some [1, 2, -3, -4] else none

/-- Toy X-direction oracle (distance 3) for the `find_weight` symmetry
witness. -/
def qX6 : Int → Option (List Int) :=
  fun b => if 3 ≤ b then some [1, 2, 3, -4] else none

/-! ## Lemmas about `pwt` -/

theorem pwtF_nil (f : Nat) (idx nv : Int) : pwtF f [] idx nv = none := by
  cases f <;> simp [pwtF]

/-- Case analysis for a successful `pwtF` call: the guards passed and the
call took the two-, three- or split-literal branch with successful
subcalls. -/
theorem pwtF_succ_inv {f : Nat} {h : List Int} {idx nv : Int} {cls : Cnf}
    {na : Nat} (hp : pwtF (f + 1) h idx nv = some (cls, na)) :
    0 < idx ∧ 0 < nv ∧
    ((∃ a b, h = [a, b] ∧ xorClauses idx a b = some cls ∧ na = 0) ∨
     (∃ a b c cs nc na2, h = [a, b, c] ∧
        xorClauses idx c (nv + 1) = some cs ∧
        pwtF f [a, b] (nv + 1) (nv + 1) = some (nc, na2) ∧
        cls = cs ++ nc ∧ na = 1 + na2) ∨
     (4 ≤ h.length ∧ ∃ cs ncB naB ncC naC,
        xorClauses idx (nv + 1) (nv + 2) = some cs ∧
        pwtF f (h.take (h.length / 2)) (nv + 1) (nv + 2) = some (ncB, naB) ∧
        pwtF f (h.drop (h.length / 2)) (nv + 2)
          (nv + 2 + (naB : Int)) = some (ncC, naC) ∧
        cls = cs ++ ncB ++ ncC ∧ na = 2 + naB + naC)) := by
  simp only [pwtF] at hp
  by_cases h0 : h.length = 0
  · simp [h0] at hp
  rw [if_neg h0] at hp
  by_cases hi : idx ≤ 0
  · simp [hi] at hp
  rw [if_neg hi] at hp
  by_cases hn : nv ≤ 0
  · simp [hn] at hp
  rw [if_neg hn] at hp
  refine ⟨by omega, by omega, ?_⟩
  by_cases h2 : h.length = 2
  · rw [if_pos h2] at hp
    obtain ⟨a, b, rfl⟩ := List.length_eq_two.mp h2
    left
    rw [show ([a, b].getD 0 0) = a from rfl,
      show ([a, b].getD 1 0) = b from rfl] at hp
    cases hx : xorClauses idx a b with
    | none => simp only [hx] at hp; exact Option.noConfusion hp
    | some cs =>
      simp only [hx] at hp
      simp only [Option.some.injEq, Prod.mk.injEq] at hp
      obtain ⟨rfl, rfl⟩ := hp
      exact ⟨a, b, rfl, hx, rfl⟩
  rw [if_neg h2] at hp
  by_cases h3 : h.length = 3
  · rw [if_pos h3] at hp
    obtain ⟨a, b, c, rfl⟩ := List.length_eq_three.mp h3
    right; left
    rw [show ([a, b, c].getD 2 0) = c from rfl,
      show ([a, b, c].take 2) = [a, b] from rfl] at hp
    cases hx : xorClauses idx c (nv + 1) with
    | none => simp only [hx] at hp; exact Option.noConfusion hp
    | some cs =>
      simp only [hx] at hp
      cases hr : pwtF f [a, b] (nv + 1) (nv + 1) with
      | none => simp only [hr] at hp; exact Option.noConfusion hp
      | some p =>
        obtain ⟨nc, na2⟩ := p
        simp only [hr] at hp
        simp only [Option.some.injEq, Prod.mk.injEq] at hp
        obtain ⟨rfl, rfl⟩ := hp
        exact ⟨a, b, c, cs, nc, na2, rfl, hx, hr, rfl, rfl⟩
  rw [if_neg h3] at hp
  right; right
  cases hx : xorClauses idx (nv + 1) (nv + 2) with
  | none => simp only [hx] at hp; exact Option.noConfusion hp
  | some cs =>
    simp only [hx] at hp
    cases hB : pwtF f (h.take (h.length / 2)) (nv + 1) (nv + 2) with
    | none => simp only [hB] at hp; exact Option.noConfusion hp
    | some pB =>
      obtain ⟨ncB, naB⟩ := pB
      simp only [hB] at hp
      cases hC : pwtF f (h.drop (h.length / 2)) (nv + 2)
          (nv + 2 + (naB : Int)) with
      | none => simp only [hC] at hp; exact Option.noConfusion hp
      | some pC =>
        obtain ⟨ncC, naC⟩ := pC
        simp only [hC] at hp
        simp only [Option.some.injEq, Prod.mk.injEq] at hp
        obtain ⟨rfl, rfl⟩ := hp
        have h4 : 4 ≤ h.length := by
          have h1 : h.length ≠ 1 := by
            intro hl
            obtain ⟨a, rfl⟩ := List.length_eq_one.mp hl
            rw [show (([a] : List Int).length / 2 : Nat) = 0 by simp,
              List.take_zero, pwtF_nil] at hB
            exact Option.noConfusion hB
          omega
        exact ⟨h4, ⟨cs, ncB, naB, ncC, naC, rfl, rfl, hC, rfl, rfl⟩⟩

/-- The ancilla count of every successful `pwt` compilation is exactly
`h.length - 2`. -/
theorem pwtF_count : ∀ (f : Nat) (h : List Int) (idx nv : Int) (cls : Cnf)
    (na : Nat), pwtF f h idx nv = some (cls, na) → na = h.length - 2 := by
  intro f
  induction f with
  | zero => intro h idx nv cls na hp; simp [pwtF] at hp
  | succ f ih =>
    intro h idx nv cls na hp
    obtain ⟨-, -, hcase⟩ := pwtF_succ_inv hp
    rcases hcase with ⟨a, b, rfl, -, rfl⟩ |
        ⟨a, b, c, cs, nc, na2, rfl, -, hr, -, rfl⟩ |
        ⟨h4, cs, ncB, naB, ncC, naC, -, hB, hC, -, rfl⟩
    · rfl
    · have h2 := ih _ _ _ _ _ hr
      simp only [List.length_cons, List.length_nil] at h2 ⊢
      omega
    · have hBc := ih _ _ _ _ _ hB
      have hCc := ih _ _ _ _ _ hC
      rw [List.length_take] at hBc
      rw [List.length_drop] at hCc
      omega

/-- Under the source's preconditions (at least two nonzero literals,
positive target and watermark), `pwt` succeeds whenever the fuel exceeds
the list length. -/
theorem pwtF_isSome : ∀ (f : Nat) (h : List Int) (idx nv : Int),
    h.length < f → 2 ≤ h.length → (∀ l ∈ h, l ≠ 0) → 0 < idx → 0 < nv →
    ∃ cls na, pwtF f h idx nv = some (cls, na) := by
  intro f
  induction f with
  | zero => intro h idx nv hf; omega
  | succ f ih =>
    intro h idx nv hf h2 hnz hidx hnv
    have hidx' : idx ≠ 0 := by omega
    rw [pwtF, if_neg (by omega), if_neg (by omega), if_neg (by omega)]
    by_cases hl2 : h.length = 2
    · obtain ⟨a, b, rfl⟩ := List.length_eq_two.mp hl2
      have ha : a ≠ 0 := hnz a (by simp)
      have hb : b ≠ 0 := hnz b (by simp)
      rw [if_pos hl2]
      have hx : xorClauses idx a b =
          some [[-idx, -a, -b], [-idx, a, b], [idx, a, -b], [idx, -a, b]] := by
        rw [xorClauses, if_neg (mul_ne_zero (mul_ne_zero hidx' ha) hb)]
      rw [show ([a, b].getD 0 0) = a from rfl,
        show ([a, b].getD 1 0) = b from rfl, hx]
      exact ⟨_, _, rfl⟩
    rw [if_neg hl2]
    by_cases hl3 : h.length = 3
    · obtain ⟨a, b, c, rfl⟩ := List.length_eq_three.mp hl3
      have ha : a ≠ 0 := hnz a (by simp)
      have hb : b ≠ 0 := hnz b (by simp)
      have hc : c ≠ 0 := hnz c (by simp)
      rw [if_pos hl3]
      have hx : xorClauses idx c (nv + 1) =
          some [[-idx, -c, -(nv+1)], [-idx, c, nv+1],
                [idx, c, -(nv+1)], [idx, -c, nv+1]] := by
        rw [xorClauses,
          if_neg (mul_ne_zero (mul_ne_zero hidx' hc) (by omega))]
      obtain ⟨nc, na2, hr⟩ := ih [a, b] (nv + 1) (nv + 1) (by simp; omega)
        (by simp) (by intro l hl; rcases List.mem_pair.mp hl with rfl | rfl
                      exacts [ha, hb]) (by omega) (by omega)
      rw [show ([a, b, c].getD 2 0) = c from rfl,
        show (([a, b, c] : List Int).take 2) = [a, b] from rfl, hx, hr]
      exact ⟨_, _, rfl⟩
    rw [if_neg hl3]
    have hl4 : 4 ≤ h.length := by omega
    have hx : xorClauses idx (nv + 1) (nv + 2) =
        some [[-idx, -(nv+1), -(nv+2)], [-idx, nv+1, nv+2],
              [idx, nv+1, -(nv+2)], [idx, -(nv+1), nv+2]] := by
      rw [xorClauses,
        if_neg (mul_ne_zero (mul_ne_zero hidx' (by omega)) (by omega))]
    obtain ⟨ncB, naB, hB⟩ := ih (h.take (h.length / 2)) (nv + 1) (nv + 2)
      (by rw [List.length_take]; omega) (by rw [List.length_take]; omega)
      (fun l hl => hnz l (List.take_subset _ _ hl)) (by omega) (by omega)
    obtain ⟨ncC, naC, hC⟩ := ih (h.drop (h.length / 2)) (nv + 2)
      (nv + 2 + (naB : Int))
      (by rw [List.length_drop]; omega) (by rw [List.length_drop]; omega)
      (fun l hl => hnz l (List.drop_subset _ _ hl)) (by omega) (by omega)
    simp only [hx]
    simp only [hB]
    simp only [hC]
    exact ⟨_, _, rfl⟩

/-! ## Semantics of the emitted clauses -/

theorem test_condition_neg {c : Int} (hc : c ≠ 0) (s : Nat → Bool) :
    test_condition (-c) s = ! test_condition c s := by
  rcases lt_trichotomy 0 c with h | h | h
  · rw [test_condition, if_neg (by omega), if_neg (by omega),
      test_condition, if_pos h, Int.natAbs_neg]
  · exact absurd h.symm hc
  · rw [test_condition, if_pos (by omega), test_condition, if_neg (by omega),
      if_neg hc, Int.natAbs_neg, Bool.not_not]

theorem test_condition_congr {c : Int} {s s' : Nat → Bool}
    (h : s' c.natAbs = s c.natAbs) :
    test_condition c s' = test_condition c s := by
  simp only [test_condition, h]

theorem bit_string_or_congr {s s' : Nat → Bool} :
    ∀ cl : Clause, (∀ l ∈ cl, s' l.natAbs = s l.natAbs) →
    bit_string_or cl s' = bit_string_or cl s := by
  intro cl
  induction cl with
  | nil => intro _; rfl
  | cons a t ih =>
    intro hag
    have ht := ih (fun l hl => hag l (List.mem_cons_of_mem a hl))
    simp only [bit_string_or, List.any_cons] at ht ⊢
    rw [test_condition_congr (hag a (List.mem_cons_self a t)), ht]

theorem bit_string_satisfies_congr {s s' : Nat → Bool} :
    ∀ F : Cnf, (∀ cl ∈ F, ∀ l ∈ cl, s' l.natAbs = s l.natAbs) →
    bit_string_satisfies F s' = bit_string_satisfies F s := by
  intro F
  induction F with
  | nil => intro _; rfl
  | cons cl G ih =>
    intro hag
    have hG := ih (fun c hc => hag c (List.mem_cons_of_mem cl hc))
    simp only [bit_string_satisfies, List.all_cons] at hG ⊢
    rw [bit_string_or_congr cl (hag cl (List.mem_cons_self cl G)), hG]

theorem xorVal_congr {s s' : Nat → Bool} :
    ∀ h : List Int, (∀ l ∈ h, s' l.natAbs = s l.natAbs) →
    xorVal s' h = xorVal s h := by
  intro h
  induction h with
  | nil => intro _; rfl
  | cons a t ih =>
    intro hag
    simp only [xorVal]
    rw [test_condition_congr (hag a (List.mem_cons_self a t)),
      ih (fun l hl => hag l (List.mem_cons_of_mem a hl))]

theorem xorVal_append (s : Nat → Bool) :
    ∀ B C : List Int, xorVal s (B ++ C) = Bool.xor (xorVal s B) (xorVal s C) := by
  intro B C
  induction B with
  | nil => simp [xorVal]
  | cons a t ih =>
    rw [List.cons_append]
    simp only [xorVal]
    rw [ih, Bool.xor_assoc]

theorem xorVal_pair (s : Nat → Bool) (a b : Int) :
    xorVal s [a, b] = Bool.xor (test_condition a s) (test_condition b s) := by
  simp [xorVal]

theorem xorVal_triple (s : Nat → Bool) (a b c : Int) :
    xorVal s [a, b, c] =
      Bool.xor (test_condition c s) (xorVal s [a, b]) := by
  simp only [xorVal]
  cases test_condition a s <;> cases test_condition b s <;>
    cases test_condition c s <;> rfl

theorem bit_string_satisfies_append (F G : Cnf) (s : Nat → Bool) :
    bit_string_satisfies (F ++ G) s =
      (bit_string_satisfies F s && bit_string_satisfies G s) := by
  simp [bit_string_satisfies, List.all_append]

/-- The nonzero-variable facts behind a successful `xorClauses` call. -/
theorem xorClauses_ne_zero {y x1 x2 : Int} {cs : Cnf}
    (hx : xorClauses y x1 x2 = some cs) : y ≠ 0 ∧ x1 ≠ 0 ∧ x2 ≠ 0 := by
  have hprod : y * x1 * x2 ≠ 0 := by
    intro h0
    rw [xorClauses, if_pos h0] at hx
    exact Option.noConfusion hx
  refine ⟨fun h => hprod ?_, fun h => hprod ?_, fun h => hprod ?_⟩ <;>
    rw [h] <;> ring

/-- The four clauses of `xor(y, x1, x2)` are satisfied exactly when the
literal value of `y` is the XOR of the literal values of `x1` and `x2`. -/
theorem xorClauses_sem {y x1 x2 : Int} {cs : Cnf}
    (hx : xorClauses y x1 x2 = some cs) (s : Nat → Bool) :
    bit_string_satisfies cs s = true ↔
      test_condition y s =
        Bool.xor (test_condition x1 s) (test_condition x2 s) := by
  obtain ⟨hy, h1, h2⟩ := xorClauses_ne_zero hx
  have hprod : y * x1 * x2 ≠ 0 :=
    mul_ne_zero (mul_ne_zero hy h1) h2
  rw [xorClauses, if_neg hprod] at hx
  injection hx with hx
  subst hx
  simp only [bit_string_satisfies, bit_string_or, List.all_cons, List.all_nil,
    List.any_cons, List.any_nil, Bool.or_false, Bool.and_true,
    test_condition_neg hy s, test_condition_neg h1 s, test_condition_neg h2 s,
    Bool.and_eq_true, Bool.or_eq_true]
  cases test_condition y s <;> cases test_condition x1 s <;>
    cases test_condition x2 s <;> simp

/-- Soundness of `pwt`: in every satisfying assignment of the emitted
clauses the target literal equals the parity of the input literals (no
side conditions beyond success of the compilation are needed). -/
theorem pwtF_sound : ∀ (f : Nat) (h : List Int) (idx nv : Int) (cls : Cnf)
    (na : Nat), pwtF f h idx nv = some (cls, na) →
    ∀ s : Nat → Bool, bit_string_satisfies cls s = true →
    test_condition idx s = xorVal s h := by
  intro f
  induction f with
  | zero => intro h idx nv cls na hp; simp [pwtF] at hp
  | succ f ih =>
    intro h idx nv cls na hp s hs
    obtain ⟨hidx, hnv, hcase⟩ := pwtF_succ_inv hp
    rcases hcase with ⟨a, b, rfl, hx, rfl⟩ |
        ⟨a, b, c, cs, nc, na2, rfl, hx, hr, rfl, rfl⟩ |
        ⟨h4, cs, ncB, naB, ncC, naC, hx, hB, hC, rfl, rfl⟩
    · rw [(xorClauses_sem hx s).mp hs, xorVal_pair]
    · rw [bit_string_satisfies_append, Bool.and_eq_true] at hs
      obtain ⟨hs1, hs2⟩ := hs
      rw [(xorClauses_sem hx s).mp hs1, ih _ _ _ _ _ hr s hs2,
        xorVal_triple]
    · rw [bit_string_satisfies_append, bit_string_satisfies_append,
        Bool.and_eq_true, Bool.and_eq_true] at hs
      obtain ⟨⟨hs0, hs1⟩, hs2⟩ := hs
      rw [(xorClauses_sem hx s).mp hs0, ih _ _ _ _ _ hB s hs1,
        ih _ _ _ _ _ hC s hs2, ← xorVal_append,
        List.take_append_drop]

/-- Each literal of the four `xor` clauses is (up to sign) one of the three
variables, and is nonzero. -/
theorem xorClauses_lit {y x1 x2 : Int} {cs : Cnf}
    (hx : xorClauses y x1 x2 = some cs) :
    ∀ cl ∈ cs, ∀ l ∈ cl, l ≠ 0 ∧
      (l.natAbs = y.natAbs ∨ l.natAbs = x1.natAbs ∨ l.natAbs = x2.natAbs) := by
  obtain ⟨hy, h1, h2⟩ := xorClauses_ne_zero hx
  have hprod : y * x1 * x2 ≠ 0 := mul_ne_zero (mul_ne_zero hy h1) h2
  rw [xorClauses, if_neg hprod] at hx
  injection hx with hx
  subst hx
  intro cl hcl l hl
  simp only [List.mem_cons, List.not_mem_nil, or_false] at hcl
  rcases hcl with rfl | rfl | rfl | rfl <;>
    (simp only [List.mem_cons, List.not_mem_nil, or_false] at hl
     rcases hl with rfl | rfl | rfl <;>
       simp [Int.natAbs_neg, Int.neg_ne_zero, hy, h1, h2])

/-- Every literal in the output of a successful `pwt` call is nonzero and
its variable lies below the advanced watermark `nv + na`, provided the
input literal variables and the target lie below `nv`. -/
theorem pwtF_lit_bound : ∀ (f : Nat) (h : List Int) (idx nv : Int)
    (cls : Cnf) (na : Nat), pwtF f h idx nv = some (cls, na) →
    (∀ l ∈ h, (l.natAbs : Int) ≤ nv) → (idx.natAbs : Int) ≤ nv →
    ∀ cl ∈ cls, ∀ l ∈ cl, l ≠ 0 ∧ (l.natAbs : Int) ≤ nv + (na : Int) := by
  intro f
  induction f with
  | zero => intro h idx nv cls na hp; simp [pwtF] at hp
  | succ f ih =>
    intro h idx nv cls na hp hbd hidxb
    obtain ⟨hidx, hnv, hcase⟩ := pwtF_succ_inv hp
    rcases hcase with ⟨a, b, rfl, hx, rfl⟩ |
        ⟨a, b, c, cs, nc, na2, rfl, hx, hr, rfl, rfl⟩ |
        ⟨h4, cs, ncB, naB, ncC, naC, hx, hB, hC, rfl, rfl⟩
    · have ha := hbd a (by simp)
      have hb := hbd b (by simp)
      intro cl hcl l hl
      obtain ⟨hl0, habs⟩ := xorClauses_lit hx cl hcl l hl
      refine ⟨hl0, ?_⟩
      rcases habs with he | he | he <;> rw [he] <;> omega
    · have hc := hbd c (by simp)
      have hnv1 : (((nv + 1 : Int).natAbs : Int)) = nv + 1 :=
        Int.natAbs_of_nonneg (by omega)
      intro cl hcl l hl
      rw [List.mem_append] at hcl
      rcases hcl with hcl | hcl
      · obtain ⟨hl0, habs⟩ := xorClauses_lit hx cl hcl l hl
        refine ⟨hl0, ?_⟩
        rcases habs with he | he | he <;> rw [he] <;> omega
      · have hsub := ih _ _ _ _ _ hr
          (by intro l hl
              simp only [List.mem_cons, List.not_mem_nil, or_false] at hl
              have ha := hbd a (by simp)
              have hb := hbd b (by simp)
              rcases hl with rfl | rfl <;> omega)
          (by omega) cl hcl l hl
        refine ⟨hsub.1, by omega⟩
    · have hnv1 : (((nv + 1 : Int).natAbs : Int)) = nv + 1 :=
        Int.natAbs_of_nonneg (by omega)
      have hnv2 : (((nv + 2 : Int).natAbs : Int)) = nv + 2 :=
        Int.natAbs_of_nonneg (by omega)
      intro cl hcl l hl
      rw [List.append_assoc, List.mem_append] at hcl
      rcases hcl with hcl | hcl
      · obtain ⟨hl0, habs⟩ := xorClauses_lit hx cl hcl l hl
        refine ⟨hl0, ?_⟩
        rcases habs with he | he | he <;> rw [he] <;> omega
      · rw [List.mem_append] at hcl
        rcases hcl with hcl | hcl
        · have hsub := ih _ _ _ _ _ hB
            (fun l hl => by
              have := hbd l (List.take_subset _ _ hl); omega)
            (by omega) cl hcl l hl
          refine ⟨hsub.1, by omega⟩
        · have hsub := ih _ _ _ _ _ hC
            (fun l hl => by
              have := hbd l (List.drop_subset _ _ hl)
              omega)
            (by omega) cl hcl l hl
          refine ⟨hsub.1, by omega⟩

/-- Completeness of `pwt`: when the target and all input variables lie at
or below the watermark `nv`, any assignment giving the target the parity
of the inputs extends — changing only variables in the ancilla range
`nv+1 … nv+na` — to an assignment satisfying all emitted clauses. -/
theorem pwtF_complete : ∀ (f : Nat) (h : List Int) (idx nv : Int)
    (cls : Cnf) (na : Nat), pwtF f h idx nv = some (cls, na) →
    (∀ l ∈ h, (l.natAbs : Int) ≤ nv) → (idx.natAbs : Int) ≤ nv →
    ∀ s : Nat → Bool, test_condition idx s = xorVal s h →
    ∃ s' : Nat → Bool,
      (∀ v : Nat, (v : Int) ≤ nv → s' v = s v) ∧
      (∀ v : Nat, nv + (na : Int) < (v : Int) → s' v = s v) ∧
      bit_string_satisfies cls s' = true := by
  intro f
  induction f with
  | zero => intro h idx nv cls na hp; simp [pwtF] at hp
  | succ f ih =>
    intro h idx nv cls na hp hbd hidxb s hpar
    obtain ⟨hidx, hnv, hcase⟩ := pwtF_succ_inv hp
    rcases hcase with ⟨a, b, rfl, hx, rfl⟩ |
        ⟨a, b, c, cs, nc, na2, rfl, hx, hr, rfl, rfl⟩ |
        ⟨h4, cs, ncB, naB, ncC, naC, hx, hB, hC, rfl, rfl⟩
    · refine ⟨s, fun v _ => rfl, fun v _ => rfl, ?_⟩
      rw [xorClauses_sem hx s, ← xorVal_pair]
      exact hpar
    · have ha := hbd a (by simp)
      have hb := hbd b (by simp)
      have hc := hbd c (by simp)
      set m : Nat := (nv + 1).natAbs with hm
      have hmI : (m : Int) = nv + 1 := by
        rw [hm]; exact Int.natAbs_of_nonneg (by omega)
      set s1 : Nat → Bool :=
        fun v => if v = m then xorVal s [a, b] else s v with hs1
      have hs1_ne : ∀ v : Nat, v ≠ m → s1 v = s v := by
        intro v hv; simp [hs1, hv]
      have hs1_low : ∀ v : Nat, (v : Int) ≤ nv → s1 v = s v := by
        intro v hv
        exact hs1_ne v (by intro e; rw [e] at hv; omega)
      have hagAB : ∀ l ∈ [a, b], s1 l.natAbs = s l.natAbs := by
        intro l hl
        apply hs1_low
        simp only [List.mem_cons, List.not_mem_nil, or_false] at hl
        rcases hl with rfl | rfl <;> omega
      have htc1 : test_condition (nv + 1) s1 = xorVal s1 [a, b] := by
        rw [test_condition, if_pos (by omega : (0:Int) < nv + 1), ← hm,
          xorVal_congr [a, b] hagAB]
        simp [hs1]
      obtain ⟨s2, h2low, h2high, h2sat⟩ := ih _ _ _ _ _ hr
        (by intro l hl
            simp only [List.mem_cons, List.not_mem_nil, or_false] at hl
            rcases hl with rfl | rfl <;> omega)
        (by omega) s1 htc1
      have hlowAll : ∀ v : Nat, (v : Int) ≤ nv → s2 v = s v := by
        intro v hv
        rw [h2low v (by omega), hs1_low v hv]
      refine ⟨s2, hlowAll, ?_, ?_⟩
      · intro v hv
        rw [h2high v (by omega), hs1_ne v (by intro e; rw [e] at hv; omega)]
      · rw [bit_string_satisfies_append, Bool.and_eq_true]
        refine ⟨?_, h2sat⟩
        rw [xorClauses_sem hx s2]
        have e_idx : test_condition idx s2 = test_condition idx s :=
          test_condition_congr (hlowAll idx.natAbs hidxb)
        have e_c : test_condition c s2 = test_condition c s :=
          test_condition_congr (hlowAll c.natAbs hc)
        have e_m : test_condition (nv + 1) s2 = xorVal s [a, b] := by
          rw [test_condition, if_pos (by omega : (0:Int) < nv + 1), ← hm,
            h2low m (by omega)]
          simp [hs1]
        rw [e_idx, e_c, e_m, hpar, xorVal_triple]
    · set B := h.take (h.length / 2) with hBdef
      set C := h.drop (h.length / 2) with hCdef
      have hbdB : ∀ l ∈ B, (l.natAbs : Int) ≤ nv := fun l hl =>
        hbd l (by rw [hBdef] at hl; exact List.take_subset _ _ hl)
      have hbdC : ∀ l ∈ C, (l.natAbs : Int) ≤ nv := fun l hl =>
        hbd l (by rw [hCdef] at hl; exact List.drop_subset _ _ hl)
      set m1 : Nat := (nv + 1).natAbs with hm1
      set m2 : Nat := (nv + 2).natAbs with hm2
      have hm1I : (m1 : Int) = nv + 1 := by
        rw [hm1]; exact Int.natAbs_of_nonneg (by omega)
      have hm2I : (m2 : Int) = nv + 2 := by
        rw [hm2]; exact Int.natAbs_of_nonneg (by omega)
      have hm12 : m2 ≠ m1 := by omega
      set s1 : Nat → Bool := fun v =>
        if v = m1 then xorVal s B else if v = m2 then xorVal s C else s v
        with hs1
      have hs1_ne : ∀ v : Nat, v ≠ m1 → v ≠ m2 → s1 v = s v := by
        intro v h1 h2; simp [hs1, h1, h2]
      have hs1_low : ∀ v : Nat, (v : Int) ≤ nv → s1 v = s v := by
        intro v hv
        exact hs1_ne v (by intro e; rw [e] at hv; omega)
          (by intro e; rw [e] at hv; omega)
      have hagB : ∀ l ∈ B, s1 l.natAbs = s l.natAbs := fun l hl =>
        hs1_low l.natAbs (hbdB l hl)
      have htcB : test_condition (nv + 1) s1 = xorVal s1 B := by
        rw [test_condition, if_pos (by omega : (0:Int) < nv + 1), ← hm1,
          xorVal_congr B hagB]
        simp [hs1]
      obtain ⟨s2, h2low, h2high, h2sat⟩ := ih _ _ _ _ _ hB
        (fun l hl => by have := hbdB l hl; omega)
        (by omega) s1 htcB
      have htcC : test_condition (nv + 2) s2 = xorVal s2 C := by
        rw [test_condition, if_pos (by omega : (0:Int) < nv + 2), ← hm2,
          h2low m2 (by omega)]
        have eC : xorVal s2 C = xorVal s C := by
          apply xorVal_congr
          intro l hl
          rw [h2low l.natAbs (by have := hbdC l hl; omega),
            hs1_low l.natAbs (hbdC l hl)]
        rw [eC]
        simp [hs1, hm12]
      obtain ⟨s3, h3low, h3high, h3sat⟩ := ih _ _ _ _ _ hC
        (fun l hl => by have := hbdC l hl; omega)
        (by omega) s2 htcC
      have h3s1 : ∀ v : Nat, (v : Int) ≤ nv → s3 v = s v := by
        intro v hv
        rw [h3low v (by omega), h2low v (by omega), hs1_low v hv]
      refine ⟨s3, h3s1, ?_, ?_⟩
      · intro v hv
        rw [h3high v (by omega), h2high v (by omega),
          hs1_ne v (by intro e; rw [e] at hv; omega)
            (by intro e; rw [e] at hv; omega)]
      · rw [bit_string_satisfies_append, bit_string_satisfies_append,
          Bool.and_eq_true, Bool.and_eq_true]
        refine ⟨⟨?_, ?_⟩, h3sat⟩
        · rw [xorClauses_sem hx s3]
          have e_idx : test_condition idx s3 = test_condition idx s :=
            test_condition_congr (h3s1 idx.natAbs hidxb)
          have e_v1 : test_condition (nv + 1) s3 = xorVal s B := by
            rw [test_condition, if_pos (by omega : (0:Int) < nv + 1), ← hm1,
              h3low m1 (by omega), h2low m1 (by omega)]
            simp [hs1]
          have e_v2 : test_condition (nv + 2) s3 = xorVal s C := by
            rw [test_condition, if_pos (by omega : (0:Int) < nv + 2), ← hm2,
              h3low m2 (by omega), h2low m2 (by omega)]
            simp [hs1, hm12]
          rw [e_idx, e_v1, e_v2, hpar, hBdef, hCdef, ← xorVal_append,
            List.take_append_drop]
        · have hbnd := pwtF_lit_bound f B (nv + 1) (nv + 2) ncB naB hB
            (fun l hl => by have := hbdB l hl; omega) (by omega)
          rw [bit_string_satisfies_congr ncB
            (fun cl hcl l hl => h3low l.natAbs (by
              have hb2 := hbnd cl hcl l hl
              omega))]
          exact h2sat

/-! ## Lemmas about `find_weight` -/

/-- The fuel of `findWeightLoopF` is irrelevant once it exceeds
`upper.toNat` (each iteration strictly shrinks the positive bound). -/
theorem findWeightLoopF_irrel : ∀ (f g : Nat)
    (query : Int → Option (List Int)) (num : Nat) (upper : Int),
    upper.toNat < f → upper.toNat < g →
    findWeightLoopF f query num upper = findWeightLoopF g query num upper := by
  intro f
  induction f with
  | zero => intro g q n u hf; omega
  | succ f ih =>
    intro g q n u hf hg
    cases g with
    | zero => omega
    | succ g =>
      rw [findWeightLoopF, findWeightLoopF]
      cases hq : q (u - 1) with
      | none => rfl
      | some out =>
        dsimp only
        by_cases hcond : 0 < (model_weight n out : Int) ∧
            (model_weight n out : Int) < u
        · rw [if_pos hcond, if_pos hcond]
          exact ih g q n _ (by omega) (by omega)
        · rw [if_neg hcond, if_neg hcond]

/-- If the search loop returns a bound `w`, the oracle was unsatisfiable
at `w - 1` and `w` does not exceed the starting bound. -/
theorem findWeightLoopF_some : ∀ (f : Nat)
    (query : Int → Option (List Int)) (num : Nat) (upper w : Int),
    findWeightLoopF f query num upper = some w →
    query (w - 1) = none ∧ w ≤ upper := by
  intro f
  induction f with
  | zero => intro q n u w hp; simp [findWeightLoopF] at hp
  | succ f ih =>
    intro q n u w hp
    rw [findWeightLoopF] at hp
    cases hq : q (u - 1) with
    | none =>
      simp only [hq, Option.some.injEq] at hp
      subst hp
      exact ⟨hq, le_refl _⟩
    | some out =>
      simp only [hq] at hp
      by_cases hcond : 0 < (model_weight n out : Int) ∧
          (model_weight n out : Int) < u
      · rw [if_pos hcond] at hp
        obtain ⟨h1, h2⟩ := ih q n _ w hp
        exact ⟨h1, by omega⟩
      · rw [if_neg hcond] at hp
        exact Option.noConfusion hp

/-- One-step unfolding of the search loop. -/
theorem findWeightLoop_unfold (query : Int → Option (List Int)) (num : Nat)
    (upper : Int) :
    findWeightLoop query num upper =
      match query (upper - 1) with
      | none => some upper
      | some out =>
        if 0 < (model_weight num out : Int) ∧
            (model_weight num out : Int) < upper
        then findWeightLoop query num (model_weight num out)
        else none := by
  rw [findWeightLoop, findWeightLoopF]
  cases hq : query (upper - 1) with
  | none => rfl
  | some out =>
    dsimp only
    by_cases hcond : 0 < (model_weight num out : Int) ∧
        (model_weight num out : Int) < upper
    · rw [if_pos hcond, if_pos hcond]
      exact findWeightLoopF_irrel _ _ _ _ _ (by omega) (by omega)
    · rw [if_neg hcond, if_neg hcond]

/-- Under a correct oracle with distance `d`, the search loop started at
any bound `≥ d` converges to exactly `d`. -/
theorem findWeightLoop_converge {q : Int → Option (List Int)} {num : Nat}
    {d : Int} (hq : OracleSpec q num d) :
    ∀ (k : Nat) (upper : Int), upper.toNat ≤ k → d ≤ upper →
    findWeightLoop q num upper = some d := by
  obtain ⟨hd, hsat, hwt⟩ := hq
  intro k
  induction k with
  | zero => intro u hu hdu; omega
  | succ k ih =>
    intro u hu hdu
    rw [findWeightLoop_unfold]
    by_cases hle : d ≤ u - 1
    · have hs : (q (u - 1)).isSome = true := (hsat (u - 1)).mpr hle
      obtain ⟨out, hout⟩ := Option.isSome_iff_exists.mp hs
      obtain ⟨hw1, hw2⟩ := hwt (u - 1) out hout
      simp only [hout]
      rw [if_pos ⟨by omega, by omega⟩]
      exact ih (model_weight num out) (by omega) hw1
    · have hnone : q (u - 1) = none :=
        Option.not_isSome_iff_eq_none.mp (by rw [hsat]; omega)
      simp only [hnone]
      rw [show u = d by omega]

/-- Under a correct oracle with distance `d`, the search loop started at
a positive bound `u` converges to `min u d` (it can never improve past the
starting bound, and never stops above `d`). -/
theorem findWeightLoop_min {q : Int → Option (List Int)} {num : Nat}
    {d : Int} (hq : OracleSpec q num d) (u : Int) :
    findWeightLoop q num u = some (min u d) := by
  by_cases hdu : d ≤ u
  · rw [findWeightLoop_converge hq u.toNat u (le_refl _) hdu,
      min_eq_right hdu]
  · obtain ⟨hd, hsat, hwt⟩ := hq
    rw [findWeightLoop_unfold]
    have hnone : q (u - 1) = none :=
      Option.not_isSome_iff_eq_none.mp (by rw [hsat]; omega)
    simp only [hnone]
    rw [min_eq_left (by omega)]

/-- The toy oracle `qZ6` obeys `OracleSpec` with distance 2. -/
theorem qZ6_spec : OracleSpec qZ6 4 2 := by
  refine ⟨by norm_num, ?_, ?_⟩
  · intro b
    by_cases hb : (2 : Int) ≤ b <;> simp [qZ6, hb]
  · intro b out hout
    simp only [qZ6] at hout
    by_cases hb : (2 : Int) ≤ b
    · rw [if_pos hb] at hout
      injection hout with hout
      subst hout
      have hw : model_weight 4 [1, 2, -3, -4] = 2 := by decide
      rw [hw]
      omega
    · rw [if_neg hb] at hout
      exact Option.noConfusion hout

/-- The toy oracle `qX6` obeys `OracleSpec` with distance 3. -/
theorem qX6_spec : OracleSpec qX6 4 3 := by
  refine ⟨by norm_num, ?_, ?_⟩
  · intro b
    by_cases hb : (3 : Int) ≤ b <;> simp [qX6, hb]
  · intro b out hout
    simp only [qX6] at hout
    by_cases hb : (3 : Int) ≤ b
    · rw [if_pos hb] at hout
      injection hout with hout
      subst hout
      have hw : model_weight 4 [1, 2, 3, -4] = 3 := by decide
      rw [hw]
      omega
    · rw [if_neg hb] at hout
      exact Option.noConfusion hout

/-! ## Claim theorems: the parity gate compiler (C1, C3, C10) -/

/-- Claim C1: for `k ≥ 2` literals with pairwise distinct underlying
variables, all distinct from the target and at most `num_vars`, and a
valid (positive, existing) target: an assignment of the variables up to
`num_vars` extends on the ancilla variables to satisfy every clause
returned by `pwt` iff the target's value equals the XOR of the literals'
truth values; and in every satisfying assignment of the returned clauses
the target equals that XOR. -/
theorem pwt_parity_correct (h : List Int) (idx nv : Int) (cls : Cnf)
    (na : Nat)
    (hk : 2 ≤ h.length)
    (hnz : ∀ l ∈ h, l ≠ 0)
    (hbd : ∀ l ∈ h, (l.natAbs : Int) ≤ nv)
    (hnd : (h.map Int.natAbs).Nodup)
    (hti : 0 < idx) (htb : idx ≤ nv)
    (hth : idx.natAbs ∉ h.map Int.natAbs)
    (hp : pwt h idx nv = some (cls, na)) (s : Nat → Bool) :
    ((∃ s' : Nat → Bool,
        (∀ v : Nat, (v : Int) ≤ nv → s' v = s v) ∧
        (∀ v : Nat, nv + (na : Int) < (v : Int) → s' v = s v) ∧
        bit_string_satisfies cls s' = true) ↔
      s idx.natAbs = xorVal s h) ∧
    (∀ t : Nat → Bool, bit_string_satisfies cls t = true →
      t idx.natAbs = xorVal t h) := by
  have hidxb : (idx.natAbs : Int) ≤ nv := by omega
  have hsound : ∀ t : Nat → Bool, bit_string_satisfies cls t = true →
      t idx.natAbs = xorVal t h := by
    intro t ht
    have hs := pwtF_sound _ _ _ _ _ _ hp t ht
    rwa [test_condition, if_pos hti] at hs
  refine ⟨⟨?_, ?_⟩, hsound⟩
  · rintro ⟨s', hlow, hhigh, hsat⟩
    have h1 := hsound s' hsat
    have h2 : s' idx.natAbs = s idx.natAbs := hlow idx.natAbs hidxb
    have h3 : xorVal s' h = xorVal s h :=
      xorVal_congr h (fun l hl => hlow l.natAbs (hbd l hl))
    rw [h2, h3] at h1
    exact h1
  · intro hs
    have hpar : test_condition idx s = xorVal s h := by
      rw [test_condition, if_pos hti]
      exact hs
    exact pwtF_complete _ _ _ _ _ _ hp hbd hidxb s hpar

/-- Witness for C1: `h = [1, 2]`, `idx = 3`, `num_vars = 3`, all-false
assignment. -/
theorem pwt_parity_correct_witness :
    ((∃ s' : Nat → Bool,
        (∀ v : Nat, (v : Int) ≤ 3 → s' v = (fun _ => false) v) ∧
        (∀ v : Nat, (3 : Int) + ((0 : Nat) : Int) < (v : Int) →
          s' v = (fun _ => false) v) ∧
        bit_string_satisfies
          [[-3, -1, -2], [-3, 1, 2], [3, 1, -2], [3, -1, 2]] s' = true) ↔
      (fun _ => false) (Int.natAbs 3) = xorVal (fun _ => false) [1, 2]) ∧
    (∀ t : Nat → Bool,
      bit_string_satisfies
        [[-3, -1, -2], [-3, 1, 2], [3, 1, -2], [3, -1, 2]] t = true →
      t (Int.natAbs 3) = xorVal t [1, 2]) :=
  pwt_parity_correct [1, 2] 3 3
    [[-3, -1, -2], [-3, 1, 2], [3, 1, -2], [3, -1, 2]] 0
    (by decide) (by decide) (by decide) (by decide) (by decide) (by decide)
    (by decide) (by decide) (fun _ => false)

/-- Claim C3: under `pwt`'s preconditions the ancilla count returned for a
list of `k ≥ 2` literals is exactly `k - 2`. -/
theorem pwt_ancilla_count (h : List Int) (idx nv : Int)
    (hk : 2 ≤ h.length) (hnz : ∀ l ∈ h, l ≠ 0)
    (hi : 0 < idx) (hn : 0 < nv) :
    ∃ cls, pwt h idx nv = some (cls, h.length - 2) := by
  obtain ⟨cls, na, hp⟩ :=
    pwtF_isSome (h.length + 1) h idx nv (by omega) hk hnz hi hn
  have hcount := pwtF_count _ _ _ _ _ _ hp
  exact ⟨cls, by rw [pwt, hp, hcount]⟩

/-- Witness for C3 at `k = 7` (the notebook's own test value: 5 ancillas). -/
theorem pwt_ancilla_count_witness :
    ∃ cls, pwt [1, 2, 3, 4, 5, 6, 7] 8 8 = some (cls, 5) :=
  pwt_ancilla_count [1, 2, 3, 4, 5, 6, 7] 8 8 (by decide) (by decide)
    (by decide) (by decide)

/-- Claim C10: a `pwt` call on a single literal always fails its own
assertions (the splitting branch recurses on an empty half, which fails
`len(h) > 0`), so `pwt` returns normally only for lists of length ≥ 2. -/
theorem pwt_single_literal_asserts :
    (∀ a idx nv : Int, pwt [a] idx nv = none) ∧
    (∀ (h : List Int) (idx nv : Int) (cls : Cnf) (na : Nat),
      pwt h idx nv = some (cls, na) → 2 ≤ h.length) := by
  have h1 : ∀ a idx nv : Int, pwt [a] idx nv = none := by
    intro a idx nv
    rw [pwt, pwtF]
    rw [if_neg (by simp)]
    by_cases hi : idx ≤ 0
    · rw [if_pos hi]
    rw [if_neg hi]
    by_cases hn : nv ≤ 0
    · rw [if_pos hn]
    rw [if_neg hn]
    rw [if_neg (by simp), if_neg (by simp)]
    rw [show (([a] : List Int).take ([a].length / 2)) = [] by simp]
    rw [pwtF_nil]
    cases xorClauses idx (nv + 1) (nv + 2) <;> rfl
  refine ⟨h1, ?_⟩
  intro h idx nv cls na hp
  match h with
  | [] => rw [pwt, pwtF_nil] at hp; exact Option.noConfusion hp
  | [a] => rw [h1] at hp; exact Option.noConfusion hp
  | a :: b :: t => simp only [List.length_cons]; omega

/-- Witness for C10. -/
theorem pwt_single_literal_asserts_witness : pwt [(5 : Int)] 2 7 = none :=
  pwt_single_literal_asserts.1 5 2 7

/-! ## Claim theorems: the search controller (C4, C6) -/

/-- Claim C4: every iteration of `find_weight`'s search loop queries the
oracle at `current - 1`; on a satisfiable answer the new bound is the
witness's weight and the loop continues only if `0 < new < current`
(assertion failure, i.e. `none`, otherwise); on an unsatisfiable answer
the loop stops and returns the current bound — so whenever a bound `w` is
returned, the oracle was unsatisfiable at `w - 1` and `w` never exceeds
the start, and the whole loop terminates within `upper.toNat` steps (any
fuel beyond `upper.toNat` computes the same fixed point). -/
theorem find_weight_search_step (query : Int → Option (List Int))
    (num : Nat) (upper : Int) :
    (findWeightLoop query num upper =
      match query (upper - 1) with
      | none => some upper
      | some out =>
        if 0 < (model_weight num out : Int) ∧
            (model_weight num out : Int) < upper
        then findWeightLoop query num (model_weight num out)
        else none) ∧
    (∀ w, findWeightLoop query num upper = some w →
      query (w - 1) = none ∧ w ≤ upper) ∧
    (∀ f : Nat, upper.toNat < f →
      findWeightLoopF f query num upper = findWeightLoop query num upper) :=
  ⟨findWeightLoop_unfold query num upper,
   fun w hp => findWeightLoopF_some _ _ _ _ _ hp,
   fun f hf => findWeightLoopF_irrel _ _ _ _ _ hf (by omega)⟩

/-- Witness for C4 with the toy oracle `q4` (distance 2, start 5). -/
theorem find_weight_search_step_witness :
    q4 ((2 : Int) - 1) = none ∧ (2 : Int) ≤ 5 :=
  (find_weight_search_step q4 4 5).2.1 2 (by decide)

/-- Claim C6: for correct oracles with distances `dZ`, `dX` and a valid
starting bound `p`, `find_weight` with `both = True` returns exactly the
minimum of the two independently computed distances. -/
theorem find_weight_both_min (qZ qX : Int → Option (List Int)) (num : Nat)
    (dZ dX p : Int) (hZ : OracleSpec qZ num dZ) (hX : OracleSpec qX num dX)
    (hpZ : dZ ≤ p) (hpX : dX ≤ p) :
    find_weight qZ qX num p false false = some dZ ∧
    find_weight qZ qX num p false true = some dX ∧
    find_weight qZ qX num p true false = some (min dZ dX) := by
  have l1 : findWeightLoop qZ num p = some dZ :=
    findWeightLoop_converge hZ p.toNat p (le_refl _) hpZ
  have l2 : findWeightLoop qX num p = some dX :=
    findWeightLoop_converge hX p.toNat p (le_refl _) hpX
  refine ⟨?_, ?_, ?_⟩
  · simp [find_weight, l1]
  · simp [find_weight, l2]
  · simp only [find_weight]
    simp only [Bool.false_eq_true, if_false, if_true, l1]
    exact findWeightLoop_min hX dZ
  
/-- Witness for C6 with the toy oracles (`dZ = 2`, `dX = 3`, `p = 5`). -/
theorem find_weight_both_min_witness :
    find_weight qZ6 qX6 4 5 false false = some 2 ∧
    find_weight qZ6 qX6 4 5 false true = some 3 ∧
    find_weight qZ6 qX6 4 5 true false = some (min 2 3) :=
  find_weight_both_min qZ6 qX6 4 2 3 5 qZ6_spec qX6_spec (by norm_num)
    (by norm_num)

/-! ## Claim theorems: configuration guard (C7) -/

/-- An integer satisfies the source's binarity test `x - x*x = 0` exactly
when it is 0 or 1. -/
theorem binary_entry_iff (x : Int) : x - x * x = 0 ↔ x = 0 ∨ x = 1 := by
  constructor
  · intro h0
    have hf : x * (1 - x) = x - x * x := by ring
    rw [h0] at hf
    rcases mul_eq_zero.mp hf with h | h
    · exact Or.inl h
    · right; omega
  · rintro (rfl | rfl) <;> ring

/-- Claim C7: before building any clause, `sat_distance` checks that `HX`
and `HZ` are binary, have the same column count, and satisfy
`HX·HZᵀ ≡ 0 (mod 2)`; the guard decides exactly these conditions, and its
failure aborts the call before compilation, so no clause is constructed
(and hence no oracle query is made). -/
theorem sat_distance_precondition_guard (HX HZ : List (List Int))
    (n rk rkx : Nat) (A Hx : List (List Int)) :
    (sat_distance_guard HX HZ = true ↔
      ((∀ r ∈ HX, ∀ x ∈ r, x = 0 ∨ x = 1) ∧
       (∀ r ∈ HZ, ∀ x ∈ r, x = 0 ∨ x = 1) ∧
       shape1 HX = shape1 HZ ∧
       (∀ rx ∈ HX, ∀ rz ∈ HZ, dotI rx rz % 2 = 0))) ∧
    (sat_distance_guard HX HZ = false →
      sat_distance_run HX HZ n rk rkx A Hx = none) := by
  constructor
  · simp only [sat_distance_guard, Bool.and_eq_true, beq_iff_eq,
      binary_check, comm_check, List.all_eq_true, binary_entry_iff]
    tauto
  · intro hg
    simp [sat_distance_run, hg]

/-- Witness for C7: a non-binary entry makes the run abort with no
clauses. -/
theorem sat_distance_precondition_guard_witness :
    sat_distance_run [[2]] [[1]] 1 0 0 [] [] = none :=
  (sat_distance_precondition_guard [[2]] [[1]] 1 0 0 [] []).2 (by decide)

/-! ## Claim theorems: model decoding and session handling (C5, C8, C9) -/

/-- Claim C5 amended: on a satisfiable oracle answer, `sat_distance`
recomputes the witness's weight and checks it against the bound, then
independently re-checks the null-space condition (`Hx @ result ≡ 0`) and
the non-stabilizer condition (`A @ x_left + x_right ≢ 0`) — against the
row-reduced, column-permuted matrices `Hx` and `A` it compiled from, not
against the original unpermuted matrices; the model is returned iff all
three re-checks pass, and any failure ends the call in an assertion
failure instead of returning the model. -/
theorem sat_model_recheck (threshold : Int) (n rk : Nat)
    (Hx A : List (List Int)) (model : List Int) (pf : Bool)
    (chk : Except Unit Bool) :
    (post_solve threshold n rk Hx A (some model) pf chk =
        (.retModel model, true) ↔
      ((((((model.take n).map (fun i => decide (0 < i))).filter
            id).length : Int) ≤ threshold) ∧
       nullVal Hx ((model.take n).map (fun i => decide (0 < i))) = 0 ∧
       0 < stabVal A (((model.take n).map (fun i => decide (0 < i))).take rk)
         (((model.take n).map (fun i => decide (0 < i))).drop rk))) ∧
    (∀ (e : ExitPath) (δ : Bool),
      post_solve threshold n rk Hx A (some model) pf chk = (e, δ) →
      e = .retModel model ∨ e = .assertionError) := by
  constructor
  · simp only [post_solve]
    by_cases h1 : ((((model.take n).map (fun i => decide (0 < i))).filter
        id).length : Int) ≤ threshold
    · rw [if_neg (not_not_intro h1)]
      by_cases h2 :
          nullVal Hx ((model.take n).map (fun i => decide (0 < i))) = 0
      · rw [if_neg (not_not_intro h2)]
        by_cases h3 : 0 < stabVal A
            (((model.take n).map (fun i => decide (0 < i))).take rk)
            (((model.take n).map (fun i => decide (0 < i))).drop rk)
        · rw [if_neg (not_not_intro h3)]
          exact ⟨fun _ => ⟨h1, h2, h3⟩, fun _ => rfl⟩
        · rw [if_pos h3]
          exact ⟨fun hEq => absurd hEq (by simp),
            fun hc => absurd hc.2.2 h3⟩
      · rw [if_pos h2]
        exact ⟨fun hEq => absurd hEq (by simp),
          fun hc => absurd hc.2.1 h2⟩
    · rw [if_pos h1]
      exact ⟨fun hEq => absurd hEq (by simp), fun hc => absurd hc.1 h1⟩
  · intro e δ hEq
    simp only [post_solve] at hEq
    split_ifs at hEq <;>
      (injection hEq with he hd; subst he; simp)

/-- Witness for C5: a model passing all three re-checks is returned with
the session released. -/
theorem sat_model_recheck_witness :
    post_solve 3 3 1 [[1, 1, 0]] [[0], [0]] (some [1, 2, -3]) false
      (Except.ok true) = (.retModel [1, 2, -3], true) :=
  (sat_model_recheck 3 3 1 [[1, 1, 0]] [[0], [0]] [1, 2, -3] false
    (Except.ok true)).1.mpr (by decide)

/-- Counterexample to C5 as stated: the source re-checks the model against
the reduced, column-permuted matrices it compiled from, not against the
original (unpermuted) matrices.  Take the original `HX = [[1, 0]]` (a
legal configuration together with, e.g., `HZ = [[0, 1]]`), identity
recorded column permutation, and compiled artifacts `Hx = [[0, 0]]`,
`A = [[1]]` that are inconsistent with `HX` — exactly the kind of
compilation fault the claimed independent re-check exists to catch (the
spec: "a compiler bug must not be silently mistaken for a genuine
low-weight operator").  The call returns the model `[1, -2]`, although
the null-space condition against the original unpermuted `HX` fails on
its support: a re-check against the original matrices would have
aborted. -/
theorem sat_model_recheck_unpermuted_cx :
    post_solve 2 2 1 [[0, 0]] [[1]] (some [1, -2]) false (Except.ok true) =
      (ExitPath.retModel [1, -2], true) ∧
    spec_null_recheck [[1, 0]] (fun i => i) 2
      (([1, -2].take 2).map (fun i => decide (0 < i))) = false :=
  ⟨by decide, by decide⟩

/-- Counterexample to C8 as stated: when the external checker reports a
failed verification by a normal return value (without raising),
`check_proof` still returns `True` — it can never return a falsy value —
the enclosing assertion passes, and the call returns `False` exactly as
on a verified proof. -/
theorem check_proof_silent_accept_cx :
    check_proof (Except.ok false) = Except.ok true ∧
    post_solve 0 1 0 [] [] none true (Except.ok false) =
      (.retFalse, true) :=
  ⟨rfl, rfl⟩

/-- Claim C8 amended: certificate failures surface only as exceptions —
if obtaining, converting or checking the certificate raises, the
exception propagates out of `sat_distance`; whenever the external checker
returns normally, `check_proof` returns `True` irrespective of the
returned verdict, the assertion passes, and the call returns `False`. -/
theorem check_proof_exception_surface (threshold : Int) (n rk : Nat)
    (Hx A : List (List Int)) (chk : Except Unit Bool) :
    (∀ e : Unit, chk = .error e →
      post_solve threshold n rk Hx A none true chk =
        (.externalError, false)) ∧
    (∀ r : Bool, chk = .ok r →
      check_proof chk = .ok true ∧
      post_solve threshold n rk Hx A none true chk = (.retFalse, true)) := by
  constructor
  · rintro e rfl
    rfl
  · rintro r rfl
    exact ⟨rfl, rfl⟩

/-- Witness for the amended C8. -/
theorem check_proof_exception_surface_witness :
    check_proof (Except.ok true) = Except.ok true ∧
    post_solve 1 1 0 [] [] none true (Except.ok true) =
      (.retFalse, true) :=
  (check_proof_exception_surface 1 1 0 [] [] (Except.ok true)).2 true rfl

/-- Counterexample to C9 as stated: on an assertion failure during
post-condition checking (here the recomputed weight 1 exceeds the bound
0), the exception propagates *without* `g.delete()` having been executed
— the solver session is not released on this exit path. -/
theorem sat_distance_delete_skipped_cx :
    post_solve 0 1 0 [[]] [] (some [1]) false (Except.ok true) =
      (.assertionError, false) := by decide

/-- Claim C9 amended: `g.delete()` runs exactly on the two normal returns
(the model on a satisfiable query, `False` on an unsatisfiable one); on
an assertion failure or an exception from the proof checker the call ends
without the session being released. -/
theorem sat_distance_delete_on_returns (threshold : Int) (n rk : Nat)
    (Hx A : List (List Int)) (sol : Option (List Int)) (pf : Bool)
    (chk : Except Unit Bool) :
    (post_solve threshold n rk Hx A sol pf chk).2 = true ↔
      ((post_solve threshold n rk Hx A sol pf chk).1 = .retFalse ∨
       ∃ m, (post_solve threshold n rk Hx A sol pf chk).1 =
         .retModel m) := by
  rcases sol with _ | model
  · simp only [post_solve]
    by_cases hpf : pf = true
    · rw [if_pos hpf]
      rcases chk with e | r
      · simp [check_proof, Except.map]
      · simp [check_proof, Except.map]
    · rw [if_neg hpf]
      simp
  · simp only [post_solve]
    split_ifs <;> simp

/-! ## Claim theorem: the ancilla/target collision of the null-space loop
(C2) -/

/-- Claim C2 evaluated at the failing input: running `sat_distance` on
`HX = HZ = [[1,1,1,1]]` (post-reduction data `n = 4`, `rk = rkx = 1`,
`A = [[1],[1],[1]]`, `Hx = [[1,1,1,1]]`), the third-term loop leaves the
watermark at 7, and the null-space loop's first call is
`pwt([1,2,3,4], 8, 7)`: its target 8 exceeds the `num_vars` 7 it receives,
so the call's first fresh ancilla `num_vars + 1 = 8` *equals* the
just-issued output variable 8 rather than being strictly greater — visible
in the degenerate emitted clause `[-8,-8,-9]` — and the emitted row
constraints are strictly stronger than the intended parity condition: the
even-parity assignment `evenCx` admits no extension above the watermark
satisfying them. -/
theorem sat_distance_ancilla_collision :
    (pwtRows false (term3Rows 4 1 [[1], [1], [1]]) (2 * (4 : Int) - 1)).map
        (fun p => p.2) = some 7 ∧
    pwtRowCalls (term2Rows 1 [[1, 1, 1, 1]] 7) 7 = [([1, 2, 3, 4], 8, 7)] ∧
    pwt [1, 2, 3, 4] 8 7 =
      some ([[-8, -8, -9], [-8, 8, 9], [8, 8, -9], [8, -8, 9],
             [-8, -1, -2], [-8, 1, 2], [8, 1, -2], [8, -1, 2],
             [-9, -3, -4], [-9, 3, 4], [9, 3, -4], [9, -3, 4]], 2) ∧
    ¬ ((8 : Int) ≤ 7) ∧
    xorVal evenCx [1, 2, 3, 4] = false ∧
    ¬ ∃ s' : Nat → Bool,
        (∀ v : Nat, (v : Int) ≤ 7 → s' v = evenCx v) ∧
        bit_string_satisfies
          ([[-8]] ++
           [[-8, -8, -9], [-8, 8, 9], [8, 8, -9], [8, -8, 9],
            [-8, -1, -2], [-8, 1, 2], [8, 1, -2], [8, -1, 2],
            [-9, -3, -4], [-9, 3, 4], [9, 3, -4], [9, -3, 4]]) s' =
          true := by
  refine ⟨by decide, by decide, by decide, by decide, by decide, ?_⟩
  rintro ⟨s', hag, hsat⟩
  have h1 : s' 1 = true := by
    rw [hag 1 (by norm_num)]; rfl
  have h2 : s' 2 = false := by
    rw [hag 2 (by norm_num)]; rfl
  simp only [List.cons_append, List.nil_append, bit_string_satisfies,
    List.all_cons, List.all_nil, Bool.and_eq_true, Bool.and_true] at hsat
  obtain ⟨hA, -, -, -, -, -, -, -, h8c, -⟩ := hsat
  simp only [bit_string_or, List.any_cons, List.any_nil, Bool.or_eq_true,
    Bool.or_false] at hA h8c
  rw [show test_condition (-8) s' = !s' 8 from rfl] at hA
  rw [show test_condition (8 : Int) s' = s' 8 from rfl,
    show test_condition (-1) s' = !s' 1 from rfl,
    show test_condition (2 : Int) s' = s' 2 from rfl] at h8c
  rw [h1, h2] at h8c
  simp at hA h8c
  simp [h8c] at hA

/-- Witness instantiation for the amended C9. -/
theorem sat_distance_delete_on_returns_witness :
    (post_solve 1 1 0 [] [] none false (Except.ok true)).2 = true ↔
      ((post_solve 1 1 0 [] [] none false (Except.ok true)).1 =
          ExitPath.retFalse ∨
       ∃ m, (post_solve 1 1 0 [] [] none false (Except.ok true)).1 =
         ExitPath.retModel m) :=
  sat_distance_delete_on_returns 1 1 0 [] [] none false (Except.ok true)

end SatQecc
